import Mathlib

/-!
Verification of the Bittensor Subnet 42 MCP server.

The development embeds, in Lean, the admission-control core (token-bucket
rate limiter) and the service-client logic of the repository, and proves
the specified properties about them.

The limiter itself (`src/utils/rate-limiter.ts`) is only imported by the
service clients; its implementation is modelled from the specification
(section 4.1): lazy refill clamped to capacity, a FIFO waiter queue, a
single serializing grant scheduler, and `cancelAll` on shutdown.  Time is
modelled by rational timestamps attached to commands, and concurrency by
universally quantifying over all interleavings (command traces), matching
the single-mutual-exclusion-scope discipline of section 5.
-/

namespace RateLimiter

/-- Modelled from the spec: a pending acquisition request in the waiter
queue of `src/utils/rate-limiter.ts` (absent from the sources), carrying
an identifier for its completion handle and its queued-at timestamp. -/
structure Waiter where
  id : Nat
  enqueuedAt : ℚ
deriving Repr, DecidableEq

/-- Modelled from the spec: the state of one token-bucket limiter from
`src/utils/rate-limiter.ts` (absent from the sources): a name for
diagnostics, an integer capacity, the period in seconds, the current
token balance, the instant of the last refill, the FIFO waiter queue and
the closed flag. -/
structure LimiterState where
  name : String
  capacity : ℕ
  periodSeconds : ℚ
  tokens : ℚ
  lastRefill : ℚ
  queue : List Waiter
  closed : Bool
deriving Repr, DecidableEq

/-- Modelled from the spec: `refillRatePerSecond = capacity / periodSeconds`. -/
def refillRate (s : LimiterState) : ℚ := (s.capacity : ℚ) / s.periodSeconds

/-- Modelled from the spec: `NewLimiter(name, capacity, periodSeconds)`;
the bucket starts full (section 8: a fresh `capacity=5` limiter grants 5
concurrent calls immediately). -/
def newLimiter (name : String) (capacity : ℕ) (periodSeconds : ℚ) (now : ℚ) :
    LimiterState :=
  { name := name, capacity := capacity, periodSeconds := periodSeconds,
    tokens := (capacity : ℚ), lastRefill := now, queue := [], closed := false }

/-- Modelled from the spec: lazy refill — add `elapsed × refillRate` to the
balance, clamp to capacity, stamp `lastRefill` (section 4.1, step 1). -/
def refill (s : LimiterState) (now : ℚ) : LimiterState :=
  { s with
    tokens := min (s.capacity : ℚ) (s.tokens + (now - s.lastRefill) * refillRate s),
    lastRefill := now }

/-- Errors a limiter can signal (section 7); `deadlineExceeded` is the
optional per-call timeout extension, not implemented by the core. -/
inductive LimiterError where
  | limiterClosed
  | deadlineExceeded
deriving Repr, DecidableEq

/-- Observable completion events a limiter run emits. -/
inductive Event where
  | granted (id : Nat) (time : ℚ)
  | errored (id : Nat) (time : ℚ) (err : LimiterError)
deriving Repr, DecidableEq

/-- Modelled from the spec: the serializing grant loop (section 4.1,
step 3) — pop the head, debit one token, resolve the waiter, re-evaluate
the new head; stop as soon as the balance falls below one. -/
def grantLoop (now : ℚ) : ℚ → List Waiter → ℚ × List Waiter × List Event
  | tokens, [] => (tokens, [], [])
  | tokens, w :: rest =>
    if 1 ≤ tokens then
      let r := grantLoop now (tokens - 1) rest
      (r.1, r.2.1, Event.granted w.id now :: r.2.2)
    else
      (tokens, w :: rest, [])

/-- Modelled from the spec: `acquire()` (section 4.1, step 2) — a closed
limiter rejects immediately with `limiterClosed` (section 7); otherwise
refill, take the fast path when the queue is empty and a token is
available, else append to the queue. -/
def acquire (s : LimiterState) (id : Nat) (now : ℚ) : LimiterState × List Event :=
  if s.closed then
    (s, [Event.errored id now LimiterError.limiterClosed])
  else
    let s1 := refill s now
    if s1.queue.isEmpty && decide (1 ≤ s1.tokens) then
      ({ s1 with tokens := s1.tokens - 1 }, [Event.granted id now])
    else
      ({ s1 with queue := s1.queue ++ [{ id := id, enqueuedAt := now }] }, [])

/-- Modelled from the spec: `tryAcquire()` — refill, then consume a token
only if the queue is empty and one is immediately available; never
enqueues (section 4.1). -/
def tryAcquire (s : LimiterState) (now : ℚ) : LimiterState × Bool :=
  let s1 := refill s now
  if s1.queue.isEmpty && decide (1 ≤ s1.tokens) then
    ({ s1 with tokens := s1.tokens - 1 }, true)
  else
    (s1, false)

/-- Modelled from the spec: `cancelAll` / `Close` — drain the queue,
resolving every pending waiter with the shutdown error, without touching
`tokens` (section 4.1, step 4). -/
def cancelAll (s : LimiterState) (now : ℚ) : LimiterState × List Event :=
  ({ s with queue := [], closed := true },
   s.queue.map (fun w => Event.errored w.id now LimiterError.limiterClosed))

/-- Modelled from the spec: one scheduler pass (the waker task of section
4.1, step 2) — refill, then run the serializing grant loop over the queue. -/
def service (s : LimiterState) (now : ℚ) : LimiterState × List Event :=
  let s1 := refill s now
  let r := grantLoop now s1.tokens s1.queue
  ({ s1 with tokens := r.1, queue := r.2.1 }, r.2.2)

/-- Commands a limiter can receive; `tick` is a pass of the waker task. -/
inductive Cmd where
  | acquire (id : Nat)
  | tryAcquire
  | close
  | tick
deriving Repr, DecidableEq

/-- One timestamped command applied to the state. -/
def stepCmd (s : LimiterState) : ℚ × Cmd → LimiterState × List Event
  | (t, Cmd.acquire id) => acquire s id t
  | (t, Cmd.tryAcquire) => ((tryAcquire s t).1, [])
  | (t, Cmd.close) => cancelAll s t
  | (t, Cmd.tick) => service s t

/-- Run a trace of timestamped commands, collecting the emitted events. -/
def run (s : LimiterState) : List (ℚ × Cmd) → LimiterState × List Event
  | [] => (s, [])
  | c :: cs =>
    let r1 := stepCmd s c
    let r2 := run r1.1 cs
    (r2.1, r1.2 ++ r2.2)

/-- Timestamps of a trace are at least the bound and nondecreasing. -/
def timesMono : ℚ → List (ℚ × Cmd) → Bool
  | _, [] => true
  | t0, (t, _) :: cs => decide (t0 ≤ t) && timesMono t cs

/-- Number of grant events in a log. -/
def grantsCount (evs : List Event) : ℕ :=
  (evs.filter fun e => match e with | Event.granted _ _ => true | _ => false).length

/-- The time an event was emitted. -/
def Event.time : Event → ℚ
  | Event.granted _ t => t
  | Event.errored _ t _ => t

/-- Identifiers of the `acquire` commands of a trace. -/
def acquireIds (cs : List (ℚ × Cmd)) : List ℕ :=
  cs.filterMap (fun p => match p.2 with | Cmd.acquire i => some i | _ => none)

/-- Whether a trace contains a `close` command. -/
def hasClose (cs : List (ℚ × Cmd)) : Bool :=
  cs.any (fun p => p.2 == Cmd.close)

/-- Well-formedness: balance within bounds, at least one token of
capacity, positive period. -/
def Wf (s : LimiterState) : Prop :=
  0 ≤ s.tokens ∧ s.tokens ≤ (s.capacity : ℚ) ∧ 1 ≤ s.capacity ∧ 0 < s.periodSeconds

end RateLimiter

namespace Config

/-- JS `parseInt` on decimal input, as used by `taostats-service.ts`
line 24: skip leading whitespace, take an optional sign, then a run of
decimal digits; `none` models `NaN` (no digits found). -/
def parseIntJS (s : String) : Option Int :=
  let chars := s.toList.dropWhile
    (fun c => c = ' ' || c = '\t' || c = '\n' || c = '\r')
  let signed : Int × List Char :=
    match chars with
    | '-' :: cs => (-1, cs)
    | '+' :: cs => (1, cs)
    | cs => (1, cs)
  let digits := signed.2.takeWhile Char.isDigit
  if digits.isEmpty then none
  else some (signed.1 *
    ((digits.foldl (fun acc c => acc * 10 + (c.toNat - '0'.toNat)) 0 : ℕ) : Int))

/-- JS `v || d` for an environment string: the default replaces both an
unset variable (`undefined`) and the empty string (falsy). -/
def envOrDefault (v : Option String) (dflt : String) : String :=
  match v with
  | none => dflt
  | some s => if s = "" then dflt else s

/-- The requests-per-minute value the `TaostatsService` constructor
passes to its limiter (`taostats-service.ts` lines 24 and 39):
`parseInt(process.env.TAO_STAT_MINUTE_LIMIT || "5")`; `none` models a
`NaN` capacity. -/
def taostatsMinuteLimit (env : Option String) : Option Int :=
  parseIntJS (envOrDefault env "5")

/-- The capacity the `MasaService` constructor passes to its limiter
(`masa-service.ts` line 35): hard-coded `new RateLimiter("masa", 15, 60)`,
with no environment configuration. -/
def masaLimiterCapacity : Int := 15

/-- The behavior the claim describes, written from the spec's words for
comparison: the fixed default whenever the variable is unset or
non-numeric, the parsed numeric value otherwise. -/
def claimedTaostatsMinuteLimit (env : Option String) : Int :=
  match env with
  | none => 5
  | some s => (parseIntJS s).getD 5

end Config

namespace Services

/-- An abstract step of a service-method body: a limiter `acquire()`
(awaited, so it has resolved before the next step runs) or an outbound
HTTP request to an endpoint. -/
inductive CallEvent where
  | acq
  | http (endpoint : String)
deriving Repr, DecidableEq

/-- The acquire/request sequences of every public method of
`TaostatsService` and `MasaService`, read off the method bodies in
`taostats-service.ts` and `masa-service.ts` in program order. -/
def serviceMethodTraces : List (String × List CallEvent) :=
  [("TaostatsService.getTaoPrice",
    [CallEvent.acq, CallEvent.http "/api/price/history/v1"]),
   ("TaostatsService.getNetworkStats",
    [CallEvent.acq, CallEvent.http "/api/stats/latest/v1",
     CallEvent.acq, CallEvent.http "/api/price/history/v1"]),
   ("TaostatsService.getTopValidators",
    [CallEvent.acq, CallEvent.http "/api/validator/latest/v1"]),
   ("TaostatsService.getSubnetInfo",
    [CallEvent.acq, CallEvent.http "/api/subnet/latest/v1",
     CallEvent.acq, CallEvent.http "/api/subnet/history/v1",
     CallEvent.acq, CallEvent.http "/api/dtao/pool/latest/v1"]),
   ("TaostatsService.getValidatorInfo",
    [CallEvent.acq, CallEvent.http "/api/validator/latest/v1",
     CallEvent.acq, CallEvent.http "/api/validator/history/v1",
     CallEvent.acq, CallEvent.http "/api/dtao/stake_balance/latest/v1"]),
   ("TaostatsService.getDelegatorInfo",
    [CallEvent.acq, CallEvent.http "/api/dtao/stake_balance/latest/v1",
     CallEvent.acq, CallEvent.http "/api/delegation/v1",
     CallEvent.acq, CallEvent.http "/api/account/history/v1"]),
   ("MasaService.searchTwitter",
    [CallEvent.acq, CallEvent.http "/api/v1/search/live/twitter"]),
   ("MasaService.checkTwitterSearchStatus",
    [CallEvent.acq, CallEvent.http "/api/v1/search/live/twitter/status"]),
   ("MasaService.getTwitterSearchResults",
    [CallEvent.acq, CallEvent.http "/api/v1/search/live/twitter/result"]),
   ("MasaService.scrapeWebPage",
    [CallEvent.acq, CallEvent.http "/api/v1/search/live/web/scrape"]),
   ("MasaService.extractSearchTerms",
    [CallEvent.acq, CallEvent.http "/api/v1/search/extraction"]),
   ("MasaService.analyzeTweets",
    [CallEvent.acq, CallEvent.http "/api/v1/search/analysis"]),
   ("MasaService.searchSimilarTweets",
    [CallEvent.acq, CallEvent.http "/api/v1/search/similarity/twitter"])]

/-- Each HTTP request must consume one resolved admission acquired
earlier in the same method body: the running balance of acquires must be
positive at every request. -/
def admissionCovered : ℕ → List CallEvent → Bool
  | _, [] => true
  | k, CallEvent.acq :: rest => admissionCovered (k + 1) rest
  | k, CallEvent.http _ :: rest => decide (0 < k) && admissionCovered (k - 1) rest

end Services

namespace TaostatsSvc

/-- The fields of the validator record consumed by the stake computation
of `TaostatsService.getValidatorInfo` (`taostats-service.ts` lines
475-494): the parsed numeric `stake` and the validator's coldkey ss58
address (absent field gives `none`). Numbers are rationals in the
embedding: arithmetic is exact, and a `NaN` from an absent numeric field
is outside the model. -/
structure ValidatorApiEntry where
  stake : ℚ
  coldkey : Option String

/-- One delegation record, as consumed by the self-stake lookup: the
delegator coldkey ss58 and the parsed `balance`. -/
structure DelegationEntry where
  coldkey : Option String
  balance : ℚ

/-- The `stake` record of the returned `ValidatorInfo`. -/
structure StakeBreakdown where
  total : ℚ
  selfStake : ℚ
  delegatedStake : ℚ

/-- The stake computation of `getValidatorInfo` (lines 466-494 and
536-540): `totalStake = stake / 1e9`; `selfStake` from the delegation
whose coldkey matches the validator's coldkey (guarded by the coldkey
being present and the delegation list being nonempty, 0 otherwise);
`delegatedStake = totalStake - selfStake`; all zeros when no validator
record came back. -/
def validatorStakeBreakdown (vinfo : Option ValidatorApiEntry)
    (delegations : List DelegationEntry) : StakeBreakdown :=
  match vinfo with
  | none => ⟨0, 0, 0⟩
  | some v =>
    let totalStake := v.stake / 1000000000
    let selfStake :=
      match v.coldkey with
      | some ck =>
        if delegations.length > 0 then
          match delegations.find? (fun d => d.coldkey == some ck) with
          | some d => d.balance / 1000000000
          | none => 0
        else 0
      | none => 0
    ⟨totalStake, selfStake, totalStake - selfStake⟩

end TaostatsSvc

namespace MasaSvc

/-- A tweet record as consumed by `searchTwitter` and the summary
generator: the `text` and `Content` fields, each possibly absent. -/
structure Tweet where
  text : Option String
  content : Option String
deriving Repr, DecidableEq

/-- JS `String.prototype.toLowerCase` on the ASCII range. -/
def jsToLower (s : String) : String :=
  ⟨s.data.map Char.toLower⟩

/-- JS `String.prototype.includes`: `needle` occurs contiguously in
`hay`. -/
def strIncludes (hay needle : String) : Bool :=
  (List.range (hay.length + 1)).any
    (fun i => needle.toList.isPrefixOf (hay.toList.drop i))

/-- JS `a || b` on possibly-absent strings: the empty string is falsy. -/
def jsOrStr (a b : Option String) : Option String :=
  match a with
  | some s => if s = "" then b else some s
  | none => b

/-- JS `s.length > n ? s.substring(0, n) + '...' : s`. -/
def jsTruncate (s : String) (n : ℕ) : String :=
  if n < s.length then String.mk (s.data.take n) ++ "..." else s

/-- The positive-sentiment word list of `generateTwitterSearchSummary`
(`masa-service.ts` line 178). -/
def positiveWords : List String :=
  ["good", "great", "excellent", "amazing", "love", "best", "positive",
   "happy", "excited", "bullish"]

/-- The negative-sentiment word list (line 179). -/
def negativeWords : List String :=
  ["bad", "terrible", "awful", "hate", "worst", "negative", "sad",
   "disappointing", "bearish", "crash"]

/-- Number of sentiment-list words contained in one lowercased tweet
body (the `forEach` increments once per matching word). -/
def sentimentHits (words : List String) (body : String) : ℕ :=
  (words.filter (fun w => strIncludes body w)).length

/-- The lowercased body the sentiment loop uses:
`(tweet.text || tweet.Content || '').toLowerCase()`. -/
def tweetBodyLower (tw : Tweet) : String :=
  jsToLower ((jsOrStr tw.text (jsOrStr tw.content (some ""))).getD "")

/-- `MasaService.generateTwitterSearchSummary` (lines 167-218): the
no-results message, the count sentence, the sentiment sentence when at
least 3 tweets came back, and the truncated most-recent-tweet excerpt. -/
def generateTwitterSearchSummary (results : List Tweet) (query : String) : String :=
  if results.length = 0 then
    "No tweets found for query \"" ++ query ++ "\"."
  else
    let count := results.length
    let base := "Found " ++ toString count ++ " tweet" ++
      (if count ≠ 1 then "s" else "") ++ " for query \"" ++ query ++ "\"."
    let s1 :=
      if 3 ≤ count then
        let positiveCount := (results.map (fun tw =>
          let body := tweetBodyLower tw
          if body = "" then 0 else sentimentHits positiveWords body)).sum
        let negativeCount := (results.map (fun tw =>
          let body := tweetBodyLower tw
          if body = "" then 0 else sentimentHits negativeWords body)).sum
        if negativeCount < positiveCount then
          base ++ " Overall sentiment appears positive."
        else if positiveCount < negativeCount then
          base ++ " Overall sentiment appears negative."
        else
          base ++ " Overall sentiment appears mixed or neutral."
      else base
    match results with
    | [] => s1
    | latest :: _ =>
      match (jsOrStr latest.text latest.content).getD "" with
      | "" => s1
      | body => s1 ++ " Most recent tweet: \"" ++ jsTruncate body 100 ++ "\""

/-- The shape of `response.data` for the live-search POST: a possibly
absent `uuid` and possibly absent `results` array. -/
structure SearchResponseData where
  uuid : Option String
  results : Option (List Tweet)

/-- The two shapes `searchTwitter` can resolve with. -/
inductive SearchTwitterOutcome where
  | jobId (uuid : String)
  | searchResult (results : List Tweet) (query : String) (summary : String)
deriving Repr, DecidableEq

/-- JS truthiness of the `uuid` field: present and nonempty. -/
def uuidTruthy : Option String → Bool
  | none => false
  | some s => decide (s ≠ "")

/-- `MasaService.searchTwitter` response handling (lines 45-69): when
`response.data && response.data.uuid` is truthy, resolve with the uuid
string (a job id); otherwise build the results object from
`response.data?.results || []` with the generated summary. -/
def searchTwitter (query : String) (data : Option SearchResponseData) :
    SearchTwitterOutcome :=
  match data with
  | some d =>
    if uuidTruthy d.uuid then
      SearchTwitterOutcome.jobId (d.uuid.getD "")
    else
      let results := d.results.getD []
      SearchTwitterOutcome.searchResult results query
        (generateTwitterSearchSummary results query)
  | none =>
    SearchTwitterOutcome.searchResult [] query
      (generateTwitterSearchSummary [] query)

end MasaSvc

namespace RateLimiter

theorem grantsCount_append (a b : List Event) :
    grantsCount (a ++ b) = grantsCount a + grantsCount b := by
  simp [grantsCount, List.filter_append]

theorem grantsCount_granted_map (now : ℚ) (q : List Waiter) :
    grantsCount (q.map (fun w => Event.granted w.id now)) = q.length := by
  induction q with
  | nil => simp [grantsCount]
  | cons w rest ih => simpa [grantsCount, List.filter] using ih

theorem grantsCount_errored_map (now : ℚ) (e : LimiterError) (q : List Waiter) :
    grantsCount (q.map (fun w => Event.errored w.id now e)) = 0 := by
  induction q with
  | nil => simp [grantsCount]
  | cons w rest ih => simpa [grantsCount, List.filter] using ih

theorem grantLoop_tokens_eq (now tk : ℚ) (q : List Waiter) :
    (grantLoop now tk q).1 = tk - ((grantLoop now tk q).2.2.length : ℚ) := by
  induction q generalizing tk with
  | nil => simp [grantLoop]
  | cons w rest ih =>
    by_cases h : 1 ≤ tk
    · have := ih (tk - 1)
      simp only [grantLoop, if_pos h, List.length_cons]
      push_cast
      linarith
    · simp [grantLoop, if_neg h]

theorem grantLoop_queue_eq (now tk : ℚ) (q : List Waiter) :
    (grantLoop now tk q).2.1 = q.drop (grantLoop now tk q).2.2.length := by
  induction q generalizing tk with
  | nil => simp [grantLoop]
  | cons w rest ih =>
    by_cases h : 1 ≤ tk
    · simp [grantLoop, if_pos h, ih (tk - 1)]
    · simp [grantLoop, if_neg h]

theorem grantLoop_events_eq (now tk : ℚ) (q : List Waiter) :
    (grantLoop now tk q).2.2 =
      (q.take (grantLoop now tk q).2.2.length).map
        (fun w => Event.granted w.id now) := by
  induction q generalizing tk with
  | nil => simp [grantLoop]
  | cons w rest ih =>
    by_cases h : 1 ≤ tk
    · simp only [grantLoop, if_pos h, List.length_cons, List.take_succ_cons,
        List.map_cons, List.cons.injEq, true_and]
      exact ih (tk - 1)
    · simp [grantLoop, if_neg h]

theorem grantsCount_grantLoop (now tk : ℚ) (q : List Waiter) :
    grantsCount (grantLoop now tk q).2.2 = (grantLoop now tk q).2.2.length := by
  induction q generalizing tk with
  | nil => simp [grantLoop, grantsCount]
  | cons w rest ih =>
    by_cases h : 1 ≤ tk
    · have := ih (tk - 1)
      simp only [grantLoop, if_pos h, grantsCount, List.filter, List.length_cons] at this ⊢
      omega
    · simp [grantLoop, if_neg h, grantsCount]

theorem grantLoop_len_le (now tk : ℚ) (q : List Waiter) :
    (grantLoop now tk q).2.2.length ≤ q.length := by
  induction q generalizing tk with
  | nil => simp [grantLoop]
  | cons w rest ih =>
    by_cases h : 1 ≤ tk
    · simpa [grantLoop, if_pos h, Nat.succ_le_succ_iff] using ih (tk - 1)
    · simp [grantLoop, if_neg h]

theorem grantLoop_tokens_nonneg (now tk : ℚ) (q : List Waiter) (h : 0 ≤ tk) :
    0 ≤ (grantLoop now tk q).1 := by
  induction q generalizing tk with
  | nil => simpa [grantLoop]
  | cons w rest ih =>
    by_cases h1 : 1 ≤ tk
    · simpa [grantLoop, if_pos h1] using ih (tk - 1) (by linarith)
    · simpa [grantLoop, if_neg h1]

theorem grantLoop_tokens_le (now tk : ℚ) (q : List Waiter) :
    (grantLoop now tk q).1 ≤ tk := by
  induction q generalizing tk with
  | nil => simp [grantLoop]
  | cons w rest ih =>
    by_cases h1 : 1 ≤ tk
    · have := ih (tk - 1)
      simp only [grantLoop, if_pos h1]
      linarith
    · simp [grantLoop, if_neg h1]

theorem refill_tokens_le (s : LimiterState) (t : ℚ) :
    (refill s t).tokens ≤ s.tokens + (t - s.lastRefill) * refillRate s :=
  min_le_right _ _

theorem refill_wf (s : LimiterState) (t : ℚ) (h : s.lastRefill ≤ t) (hwf : Wf s) :
    0 ≤ (refill s t).tokens ∧ (refill s t).tokens ≤ (s.capacity : ℚ) := by
  constructor
  · refine le_min (by positivity) ?_
    have hrate : 0 ≤ refillRate s := by
      have := hwf.2.2.2
      have : (0 : ℚ) ≤ (s.capacity : ℚ) := by positivity
      exact div_nonneg this (le_of_lt hwf.2.2.2)
    nlinarith [hwf.1]
  · exact min_le_left _ _

theorem stepCmd_params (s : LimiterState) (t : ℚ) (c : Cmd) :
    (stepCmd s (t, c)).1.capacity = s.capacity ∧
      (stepCmd s (t, c)).1.periodSeconds = s.periodSeconds := by
  cases c with
  | acquire id =>
    simp only [stepCmd, acquire]
    split
    · exact ⟨rfl, rfl⟩
    · split <;> exact ⟨rfl, rfl⟩
  | tryAcquire =>
    simp only [stepCmd, tryAcquire]
    split <;> exact ⟨rfl, rfl⟩
  | close => exact ⟨rfl, rfl⟩
  | tick => exact ⟨rfl, rfl⟩

theorem stepCmd_refillRate (s : LimiterState) (t : ℚ) (c : Cmd) :
    refillRate (stepCmd s (t, c)).1 = refillRate s := by
  have h := stepCmd_params s t c
  simp [refillRate, h.1, h.2]

theorem stepCmd_lastRefill_mem (s : LimiterState) (t : ℚ) (c : Cmd) :
    (stepCmd s (t, c)).1.lastRefill = s.lastRefill ∨
      (stepCmd s (t, c)).1.lastRefill = t := by
  cases c with
  | acquire id =>
    simp only [stepCmd, acquire]
    split
    · exact Or.inl rfl
    · split <;> exact Or.inr rfl
  | tryAcquire =>
    simp only [stepCmd, tryAcquire]
    split <;> exact Or.inr rfl
  | close => exact Or.inl rfl
  | tick => exact Or.inr rfl

theorem stepCmd_lastRefill (s : LimiterState) (t : ℚ) (c : Cmd) (h : s.lastRefill ≤ t) :
    s.lastRefill ≤ (stepCmd s (t, c)).1.lastRefill ∧
      (stepCmd s (t, c)).1.lastRefill ≤ t := by
  rcases stepCmd_lastRefill_mem s t c with h1 | h1 <;> rw [h1]
  · exact ⟨le_refl _, h⟩
  · exact ⟨h, le_refl _⟩

theorem stepCmd_accounting (s : LimiterState) (t : ℚ) (c : Cmd) :
    (grantsCount (stepCmd s (t, c)).2 : ℚ) + (stepCmd s (t, c)).1.tokens ≤
      s.tokens + ((stepCmd s (t, c)).1.lastRefill - s.lastRefill) * refillRate s := by
  have hmin := refill_tokens_le s t
  cases c with
  | acquire id =>
    simp only [stepCmd, acquire]
    split
    · simp [grantsCount]
    · split
      · show (grantsCount [Event.granted id t] : ℚ) + ((refill s t).tokens - 1) ≤
          s.tokens + (t - s.lastRefill) * refillRate s
        have h1 : grantsCount [Event.granted id t] = 1 := by
          simp [grantsCount, List.filter]
        rw [h1]
        push_cast
        linarith
      · show (grantsCount [] : ℚ) + (refill s t).tokens ≤
          s.tokens + (t - s.lastRefill) * refillRate s
        have h1 : grantsCount [] = 0 := by simp [grantsCount]
        rw [h1]
        push_cast
        linarith
  | tryAcquire =>
    simp only [stepCmd, tryAcquire]
    have h1 : grantsCount [] = 0 := by simp [grantsCount]
    split
    · show (grantsCount [] : ℚ) + ((refill s t).tokens - 1) ≤
        s.tokens + (t - s.lastRefill) * refillRate s
      rw [h1]
      push_cast
      linarith
    · show (grantsCount [] : ℚ) + (refill s t).tokens ≤
        s.tokens + (t - s.lastRefill) * refillRate s
      rw [h1]
      push_cast
      linarith
  | close =>
    simp only [stepCmd, cancelAll]
    simp [grantsCount_errored_map]
  | tick =>
    have htok := grantLoop_tokens_eq t (refill s t).tokens (refill s t).queue
    show (grantsCount (grantLoop t (refill s t).tokens (refill s t).queue).2.2 : ℚ) +
        (grantLoop t (refill s t).tokens (refill s t).queue).1 ≤
        s.tokens + (t - s.lastRefill) * refillRate s
    rw [grantsCount_grantLoop, htok]
    linarith

theorem stepCmd_wf (s : LimiterState) (t : ℚ) (c : Cmd)
    (h : s.lastRefill ≤ t) (hwf : Wf s) : Wf (stepCmd s (t, c)).1 := by
  have hparams := stepCmd_params s t c
  have hr := refill_wf s t h hwf
  have h0 : 0 ≤ (stepCmd s (t, c)).1.tokens := by
    cases c with
    | acquire id =>
      simp only [stepCmd, acquire]
      split
      · exact hwf.1
      · split
        · rename_i hcond
          have h1 : (1 : ℚ) ≤ (refill s t).tokens :=
            of_decide_eq_true ((Bool.and_eq_true _ _).mp hcond).2
          show (0 : ℚ) ≤ (refill s t).tokens - 1
          linarith
        · exact hr.1
    | tryAcquire =>
      simp only [stepCmd, tryAcquire]
      split
      · rename_i hcond
        have h1 : (1 : ℚ) ≤ (refill s t).tokens :=
          of_decide_eq_true ((Bool.and_eq_true _ _).mp hcond).2
        show (0 : ℚ) ≤ (refill s t).tokens - 1
        linarith
      · exact hr.1
    | close => exact hwf.1
    | tick => exact grantLoop_tokens_nonneg _ _ _ hr.1
  have h1 : (stepCmd s (t, c)).1.tokens ≤ ((stepCmd s (t, c)).1.capacity : ℚ) := by
    rw [hparams.1]
    cases c with
    | acquire id =>
      simp only [stepCmd, acquire]
      split
      · exact hwf.2.1
      · split
        · show (refill s t).tokens - 1 ≤ (s.capacity : ℚ)
          linarith [hr.2]
        · exact hr.2
    | tryAcquire =>
      simp only [stepCmd, tryAcquire]
      split
      · show (refill s t).tokens - 1 ≤ (s.capacity : ℚ)
        linarith [hr.2]
      · exact hr.2
    | close => exact hwf.2.1
    | tick => exact le_trans (grantLoop_tokens_le _ _ _) hr.2
  refine ⟨h0, h1, ?_, ?_⟩
  · rw [hparams.1]
    exact hwf.2.2.1
  · rw [hparams.2]
    exact hwf.2.2.2

theorem timesMono_cons (t0 t : ℚ) (c : Cmd) (cs : List (ℚ × Cmd))
    (h : timesMono t0 ((t, c) :: cs) = true) :
    t0 ≤ t ∧ timesMono t cs = true := by
  simp only [timesMono, Bool.and_eq_true, decide_eq_true_eq] at h
  exact h

theorem timesMono_of_le (t0 t1 : ℚ) (cs : List (ℚ × Cmd)) (h : t1 ≤ t0)
    (hm : timesMono t0 cs = true) : timesMono t1 cs = true := by
  cases cs with
  | nil => rfl
  | cons c cs =>
    obtain ⟨t, c⟩ := c
    obtain ⟨h1, h2⟩ := timesMono_cons t0 t c cs hm
    simp only [timesMono, Bool.and_eq_true, decide_eq_true_eq]
    exact ⟨le_trans h h1, h2⟩

theorem run_params (s : LimiterState) (cs : List (ℚ × Cmd)) :
    (run s cs).1.capacity = s.capacity ∧
      (run s cs).1.periodSeconds = s.periodSeconds := by
  induction cs generalizing s with
  | nil => exact ⟨rfl, rfl⟩
  | cons c cs ih =>
    obtain ⟨t, c⟩ := c
    have h1 := stepCmd_params s t c
    have h2 := ih (stepCmd s (t, c)).1
    exact ⟨h2.1.trans h1.1, h2.2.trans h1.2⟩

theorem run_refillRate (s : LimiterState) (cs : List (ℚ × Cmd)) :
    refillRate (run s cs).1 = refillRate s := by
  have h := run_params s cs
  simp [refillRate, h.1, h.2]

theorem run_lastRefill_ge (s : LimiterState) (cs : List (ℚ × Cmd))
    (hm : timesMono s.lastRefill cs = true) :
    s.lastRefill ≤ (run s cs).1.lastRefill := by
  induction cs generalizing s with
  | nil => exact le_refl _
  | cons c cs ih =>
    obtain ⟨t, c⟩ := c
    obtain ⟨h1, h2⟩ := timesMono_cons _ t c cs hm
    have h3 := stepCmd_lastRefill s t c h1
    have h4 : timesMono (stepCmd s (t, c)).1.lastRefill cs = true :=
      timesMono_of_le t _ cs h3.2 h2
    exact le_trans h3.1 (ih _ h4)

theorem run_lastRefill_mem (s : LimiterState) (cs : List (ℚ × Cmd)) :
    (run s cs).1.lastRefill = s.lastRefill ∨
      ∃ p ∈ cs, (run s cs).1.lastRefill = p.1 := by
  induction cs generalizing s with
  | nil => exact Or.inl rfl
  | cons c cs ih =>
    obtain ⟨t, c⟩ := c
    rcases ih (stepCmd s (t, c)).1 with h | ⟨p, hp, hval⟩
    · rcases stepCmd_lastRefill_mem s t c with h2 | h2
      · exact Or.inl ((show (run _ cs).1.lastRefill = _ from h).trans h2)
      · exact Or.inr ⟨(t, c), List.mem_cons_self _ _, h.trans h2⟩
    · exact Or.inr ⟨p, List.mem_cons_of_mem _ hp, hval⟩

theorem run_wf (s : LimiterState) (cs : List (ℚ × Cmd)) (hwf : Wf s)
    (hm : timesMono s.lastRefill cs = true) : Wf (run s cs).1 := by
  induction cs generalizing s with
  | nil => exact hwf
  | cons c cs ih =>
    obtain ⟨t, c⟩ := c
    obtain ⟨h1, h2⟩ := timesMono_cons _ t c cs hm
    have h3 := stepCmd_lastRefill s t c h1
    exact ih _ (stepCmd_wf s t c h1 hwf) (timesMono_of_le t _ cs h3.2 h2)

theorem run_accounting (s : LimiterState) (cs : List (ℚ × Cmd)) :
    (grantsCount (run s cs).2 : ℚ) + (run s cs).1.tokens ≤
      s.tokens + ((run s cs).1.lastRefill - s.lastRefill) * refillRate s := by
  induction cs generalizing s with
  | nil => simp [run, grantsCount]
  | cons c cs ih =>
    obtain ⟨t, c⟩ := c
    have hstep := stepCmd_accounting s t c
    have hrest := ih (stepCmd s (t, c)).1
    rw [stepCmd_refillRate s t c] at hrest
    simp only [run, grantsCount_append]
    push_cast
    linarith

theorem refill_self (s : LimiterState) (h : s.tokens ≤ (s.capacity : ℚ)) :
    refill s s.lastRefill = s := by
  simp [refill, min_eq_right h]

theorem newLimiter_wf (n : String) (C : ℕ) (P t : ℚ) (hC : 1 ≤ C) (hP : 0 < P) :
    Wf (newLimiter n C P t) :=
  ⟨Nat.cast_nonneg C, le_refl _, hC, hP⟩

theorem timesMono_const (t : ℚ) (ids : List ℕ) :
    timesMono t (ids.map (fun i => (t, Cmd.acquire i))) = true := by
  induction ids with
  | nil => rfl
  | cons i rest ih => simp [timesMono, ih]

theorem burst_enqueue (t : ℚ) : ∀ (ids : List ℕ) (s : LimiterState),
    s.lastRefill = t → s.closed = false → s.queue ≠ [] →
    s.tokens ≤ (s.capacity : ℚ) →
    run s (ids.map (fun i => (t, Cmd.acquire i))) =
      ({ s with queue := s.queue ++ ids.map (fun i => (⟨i, t⟩ : Waiter)) }, []) := by
  intro ids
  induction ids with
  | nil =>
    intro s _ _ _ _
    simp [run]
  | cons i rest ih =>
    intro s hlr hcl hne htok
    have hrf : refill s t = s := by
      rw [← hlr]
      exact refill_self s htok
    have hqe : s.queue.isEmpty = false := by
      cases hq : s.queue with
      | nil => exact absurd hq hne
      | cons a l => rfl
    have hstep : stepCmd s (t, Cmd.acquire i) =
        ({ s with queue := s.queue ++ [⟨i, t⟩] }, []) := by
      simp [stepCmd, acquire, hcl, hrf, hqe]
    have hih := ih { s with queue := s.queue ++ [⟨i, t⟩] } hlr hcl (by simp) htok
    simp only [List.map_cons, run, hstep, hih]
    simp

theorem burst_full (t : ℚ) : ∀ (ids : List ℕ) (s : LimiterState) (m : ℕ),
    s.lastRefill = t → s.closed = false → s.queue = [] →
    s.tokens = (m : ℚ) → m ≤ s.capacity →
    grantsCount (run s (ids.map (fun i => (t, Cmd.acquire i)))).2 = min ids.length m ∧
      (run s (ids.map (fun i => (t, Cmd.acquire i)))).1.queue =
        (ids.drop m).map (fun i => (⟨i, t⟩ : Waiter)) ∧
      (run s (ids.map (fun i => (t, Cmd.acquire i)))).1.tokens =
        ((m - min ids.length m : ℕ) : ℚ) ∧
      (run s (ids.map (fun i => (t, Cmd.acquire i)))).1.lastRefill = t := by
  intro ids
  induction ids with
  | nil =>
    intro s m hlr _ hq htok _
    exact ⟨by simp [run, grantsCount], by simp [run, hq],
      by simp [run, htok], by simp [run, hlr]⟩
  | cons i rest ih =>
    intro s m hlr hcl hq htok hcap
    have hrf : refill s t = s := by
      rw [← hlr]
      refine refill_self s ?_
      rw [htok]
      exact_mod_cast hcap
    cases m with
    | zero =>
      have hcond : decide ((1 : ℚ) ≤ s.tokens) = false := by
        rw [htok]
        norm_num
      have hstep : stepCmd s (t, Cmd.acquire i) =
          ({ s with queue := [⟨i, t⟩] }, []) := by
        simp [stepCmd, acquire, hcl, hrf, hcond, hq]
      have henq := burst_enqueue t rest { s with queue := [⟨i, t⟩] } hlr hcl
        (by simp) (by rw [show ({ s with queue := [(⟨i, t⟩ : Waiter)] } :
          LimiterState).tokens = s.tokens from rfl, htok]; exact_mod_cast Nat.zero_le _)
      simp only [List.map_cons, run, hstep, henq]
      refine ⟨by simp [grantsCount], by simp, ?_, by simp [hlr]⟩
      simp [htok]
    | succ k =>
      have h1le : (1 : ℚ) ≤ s.tokens := by
        rw [htok]
        exact_mod_cast Nat.succ_le_succ (Nat.zero_le k)
      have hstep : stepCmd s (t, Cmd.acquire i) =
          ({ s with tokens := s.tokens - 1 }, [Event.granted i t]) := by
        simp [stepCmd, acquire, hcl, hrf, hq, h1le]
      have htok' : ({ s with tokens := s.tokens - 1 } : LimiterState).tokens =
          ((k : ℕ) : ℚ) := by
        show s.tokens - 1 = _
        rw [htok]
        push_cast
        ring
      obtain ⟨hg, hqq, htk, hlr'⟩ := ih { s with tokens := s.tokens - 1 } k hlr hcl hq
        htok' (le_trans (Nat.le_succ k) hcap)
      simp only [List.map_cons, run, hstep]
      refine ⟨?_, ?_, ?_, hlr'⟩
      · rw [grantsCount_append, hg]
        have h1 : grantsCount [Event.granted i t] = 1 := by
          simp [grantsCount, List.filter]
        rw [h1]
        simp only [List.length_cons]
        omega
      · rw [hqq]
        rfl
      · rw [htk]
        have : k - min rest.length k = k + 1 - min (rest.length + 1) (k + 1) := by
          omega
        rw [this]
        rfl

theorem acquireIds_cons (t : ℚ) (c : Cmd) (cs : List (ℚ × Cmd)) :
    acquireIds ((t, c) :: cs) =
      (match c with | Cmd.acquire i => [i] | _ => []) ++ acquireIds cs := by
  cases c <;> simp [acquireIds, List.filterMap_cons]

theorem hasClose_cons (t : ℚ) (c : Cmd) (cs : List (ℚ × Cmd))
    (h : hasClose ((t, c) :: cs) = false) :
    c ≠ Cmd.close ∧ hasClose cs = false := by
  simp only [hasClose, List.any_cons, Bool.or_eq_false_iff] at h
  refine ⟨?_, h.2⟩
  intro hc
  rw [hc] at h
  simp at h

theorem stepCmd_errored_closed (s : LimiterState) (t : ℚ) (c : Cmd) (id : ℕ)
    (te : ℚ) (e : LimiterError)
    (h : Event.errored id te e ∈ (stepCmd s (t, c)).2) :
    e = LimiterError.limiterClosed := by
  cases c with
  | acquire i =>
    simp only [stepCmd, acquire] at h
    split at h
    · simp only [List.mem_singleton, Event.errored.injEq] at h
      exact h.2.2
    · split at h <;> simp at h
  | tryAcquire => simp [stepCmd] at h
  | close =>
    simp only [stepCmd, cancelAll, List.mem_map] at h
    obtain ⟨w, _, hw⟩ := h
    have h2 := (Event.errored.injEq _ _ _ _ _ _).mp hw
    exact h2.2.2.symm
  | tick =>
    simp only [stepCmd, service] at h
    rw [grantLoop_events_eq] at h
    simp only [List.mem_map] at h
    obtain ⟨w, _, hw⟩ := h
    exact absurd hw (by simp)

theorem stepCmd_no_error (s : LimiterState) (t : ℚ) (c : Cmd)
    (hc : c ≠ Cmd.close) (hcl : s.closed = false) :
    (∀ id te e, Event.errored id te e ∉ (stepCmd s (t, c)).2) ∧
      (stepCmd s (t, c)).1.closed = false := by
  cases c with
  | acquire i =>
    constructor
    · intro id te e h
      simp only [stepCmd, acquire, hcl] at h
      simp only [Bool.false_eq_true, if_false] at h
      split at h <;> simp at h
    · simp only [stepCmd, acquire, hcl]
      simp only [Bool.false_eq_true, if_false]
      split
      · exact hcl
      · exact hcl
  | tryAcquire =>
    constructor
    · intro id te e h
      simp [stepCmd] at h
    · simp only [stepCmd, tryAcquire]
      split
      · exact hcl
      · exact hcl
  | close => exact absurd rfl hc
  | tick =>
    constructor
    · intro id te e h
      simp only [stepCmd, service] at h
      rw [grantLoop_events_eq] at h
      simp only [List.mem_map] at h
      obtain ⟨w, _, hw⟩ := h
      exact absurd hw (by simp)
    · exact hcl

theorem run_errors_limiterClosed (s : LimiterState) (cs : List (ℚ × Cmd))
    (id : ℕ) (te : ℚ) (e : LimiterError)
    (h : Event.errored id te e ∈ (run s cs).2) :
    e = LimiterError.limiterClosed := by
  induction cs generalizing s with
  | nil => simp [run] at h
  | cons c cs ih =>
    obtain ⟨t, c⟩ := c
    simp only [run, List.mem_append] at h
    rcases h with h | h
    · exact stepCmd_errored_closed s t c id te e h
    · exact ih _ h

theorem run_no_error (s : LimiterState) (cs : List (ℚ × Cmd))
    (hcl : s.closed = false) (hnc : hasClose cs = false) :
    ∀ id te e, Event.errored id te e ∉ (run s cs).2 := by
  induction cs generalizing s with
  | nil => intro id te e h; simp [run] at h
  | cons c cs ih =>
    obtain ⟨t, c⟩ := c
    obtain ⟨hc, hnc'⟩ := hasClose_cons t c cs hnc
    obtain ⟨hstep, hcl'⟩ := stepCmd_no_error s t c hc hcl
    intro id te e h
    simp only [run, List.mem_append] at h
    rcases h with h | h
    · exact hstep id te e h
    · exact ih _ hcl' hnc' id te e h

theorem tryAcquire_queue (s : LimiterState) (t : ℚ) :
    (stepCmd s (t, Cmd.tryAcquire)).1.queue = s.queue := by
  simp only [stepCmd, tryAcquire]
  split <;> rfl

theorem tryAcquire_lastRefill (s : LimiterState) (t : ℚ) :
    (stepCmd s (t, Cmd.tryAcquire)).1.lastRefill = t := by
  simp only [stepCmd, tryAcquire]
  split <;> rfl

theorem stepCmd_event_time (s : LimiterState) (t : ℚ) (c : Cmd) (ev : Event)
    (h : ev ∈ (stepCmd s (t, c)).2) : ev.time = t := by
  cases c with
  | acquire i =>
    simp only [stepCmd, acquire] at h
    split at h
    · simp only [List.mem_singleton] at h
      rw [h]
      rfl
    · split at h
      · simp only [List.mem_singleton] at h
        rw [h]
        rfl
      · simp at h
  | tryAcquire => simp [stepCmd] at h
  | close =>
    simp only [stepCmd, cancelAll, List.mem_map] at h
    obtain ⟨w, _, hw⟩ := h
    rw [← hw]
    rfl
  | tick =>
    simp only [stepCmd, service] at h
    rw [grantLoop_events_eq] at h
    simp only [List.mem_map] at h
    obtain ⟨w, _, hw⟩ := h
    rw [← hw]
    rfl

theorem run_event_time_ge (s : LimiterState) (cs : List (ℚ × Cmd)) (t0 : ℚ)
    (hm : timesMono t0 cs = true) (ev : Event) (h : ev ∈ (run s cs).2) :
    t0 ≤ ev.time := by
  induction cs generalizing s t0 with
  | nil => simp [run] at h
  | cons c cs ih =>
    obtain ⟨t, c⟩ := c
    obtain ⟨h1, h2⟩ := timesMono_cons t0 t c cs hm
    simp only [run, List.mem_append] at h
    rcases h with h | h
    · rw [stepCmd_event_time s t c ev h]
      exact h1
    · exact le_trans h1 (ih _ t h2 h)

theorem stepCmd_granted_src (s : LimiterState) (t : ℚ) (c : Cmd) (x : ℕ) (tx : ℚ)
    (h : Event.granted x tx ∈ (stepCmd s (t, c)).2) :
    x ∈ s.queue.map Waiter.id ∨ c = Cmd.acquire x := by
  cases c with
  | acquire i =>
    simp only [stepCmd, acquire] at h
    split at h
    · simp at h
    · split at h
      · simp only [List.mem_singleton, Event.granted.injEq] at h
        exact Or.inr (by rw [h.1])
      · simp at h
  | tryAcquire => simp [stepCmd] at h
  | close =>
    simp only [stepCmd, cancelAll, List.mem_map] at h
    obtain ⟨w, _, hw⟩ := h
    simp at hw
  | tick =>
    simp only [stepCmd, service] at h
    rw [grantLoop_events_eq] at h
    simp only [List.mem_map] at h
    obtain ⟨w, hwmem, he⟩ := h
    have hid : w.id = x := ((Event.granted.injEq _ _ _ _).mp he).1
    left
    have hwq : w ∈ s.queue := List.mem_of_mem_take hwmem
    exact hid ▸ List.mem_map_of_mem Waiter.id hwq

theorem stepCmd_queue_src (s : LimiterState) (t : ℚ) (c : Cmd) (x : ℕ)
    (h : x ∈ (stepCmd s (t, c)).1.queue.map Waiter.id) :
    x ∈ s.queue.map Waiter.id ∨ c = Cmd.acquire x := by
  cases c with
  | acquire i =>
    simp only [stepCmd, acquire] at h
    split at h
    · exact Or.inl h
    · split at h
      · exact Or.inl h
      · have h' : x ∈ (s.queue ++ [(⟨i, t⟩ : Waiter)]).map Waiter.id := h
        simp only [List.map_append, List.mem_append, List.map_cons, List.map_nil,
          List.mem_singleton] at h'
        rcases h' with h' | h'
        · exact Or.inl h'
        · exact Or.inr (by rw [h'])
  | tryAcquire =>
    rw [tryAcquire_queue] at h
    exact Or.inl h
  | close => simp [stepCmd, cancelAll] at h
  | tick =>
    simp only [stepCmd, service] at h
    rw [grantLoop_queue_eq] at h
    left
    simp only [List.mem_map] at h ⊢
    obtain ⟨w, hwmem, hid⟩ := h
    exact ⟨w, List.mem_of_mem_drop hwmem, hid⟩

theorem run_granted_src (s : LimiterState) (cs : List (ℚ × Cmd)) (x : ℕ) (tx : ℚ)
    (h : Event.granted x tx ∈ (run s cs).2) :
    x ∈ s.queue.map Waiter.id ∨ x ∈ acquireIds cs := by
  induction cs generalizing s with
  | nil => simp [run] at h
  | cons c cs ih =>
    obtain ⟨t, c⟩ := c
    simp only [run, List.mem_append] at h
    have hacq : c = Cmd.acquire x → x ∈ acquireIds ((t, c) :: cs) := by
      intro hc
      rw [acquireIds_cons, hc]
      simp
    rcases h with h | h
    · rcases stepCmd_granted_src s t c x tx h with h' | h'
      · exact Or.inl h'
      · exact Or.inr (hacq h')
    · rcases ih (stepCmd s (t, c)).1 h with h' | h'
      · rcases stepCmd_queue_src s t c x h' with h'' | h''
        · exact Or.inl h''
        · exact Or.inr (hacq h'')
      · refine Or.inr ?_
        rw [acquireIds_cons]
        exact List.mem_append_right _ h'

theorem acquire_enqueue (s : LimiterState) (i0 : ℕ) (t : ℚ)
    (hcl : s.closed = false) (hqne : s.queue.isEmpty = false) :
    (stepCmd s (t, Cmd.acquire i0)).2 = [] ∧
      (stepCmd s (t, Cmd.acquire i0)).1.queue = s.queue ++ [⟨i0, t⟩] ∧
      (stepCmd s (t, Cmd.acquire i0)).1.lastRefill = t := by
  have hq : (refill s t).queue = s.queue := rfl
  have hlr : (refill s t).lastRefill = t := rfl
  simp [stepCmd, acquire, hcl, hq, hlr, hqne]

theorem two_le_count_of_two_idx (l : List ℕ) (b : ℕ) (k j : ℕ)
    (hk : l[k]? = some b) (hj : l[j]? = some b) (hne : k ≠ j) : 2 ≤ l.count b := by
  wlog h : k < j generalizing k j
  · exact this j k hj hk (Ne.symm hne) (by omega)
  have h1 : b ∈ l.take (k + 1) := by
    have ht : (l.take (k + 1))[k]? = some b := by
      rw [List.getElem?_take, if_pos (Nat.lt_succ_self k)]
      exact hk
    exact List.getElem?_mem ht
  have h2 : b ∈ l.drop (k + 1) := by
    have ht : (l.drop (k + 1))[j - (k + 1)]? = some b := by
      rw [List.getElem?_drop, show k + 1 + (j - (k + 1)) = j by omega]
      exact hj
    exact List.getElem?_mem ht
  have hc1 : 0 < (l.take (k + 1)).count b := List.count_pos_iff.mpr h1
  have hc2 : 0 < (l.drop (k + 1)).count b := List.count_pos_iff.mpr h2
  have hsplit : (l.take (k + 1)).count b + (l.drop (k + 1)).count b = l.count b := by
    rw [← List.count_append, List.take_append_drop]
  omega

theorem fifo_aux (a b : ℕ) (tb : ℚ) : ∀ (cs : List (ℚ × Cmd)) (s : LimiterState)
    (i j : ℕ),
    timesMono s.lastRefill cs = true →
    a ∉ acquireIds cs → b ∉ acquireIds cs →
    (s.queue.map Waiter.id)[i]? = some a →
    (s.queue.map Waiter.id)[j]? = some b →
    i < j →
    (s.queue.map Waiter.id).count b = 1 →
    Event.granted b tb ∈ (run s cs).2 →
    ∃ ta, ta ≤ tb ∧ Event.granted a ta ∈ (run s cs).2 := by
  intro cs
  induction cs with
  | nil =>
    intro s i j _ _ _ _ _ _ _ hmem
    simp [run] at hmem
  | cons c cs ih =>
    obtain ⟨t, c⟩ := c
    intro s i j hm hna hnb hi hj hij hcount hmem
    obtain ⟨hle, hm'⟩ := timesMono_cons _ t c cs hm
    have hna' : a ∉ acquireIds cs := by
      rw [acquireIds_cons] at hna
      intro h
      exact hna (List.mem_append_right _ h)
    have hnb' : b ∉ acquireIds cs := by
      rw [acquireIds_cons] at hnb
      intro h
      exact hnb (List.mem_append_right _ h)
    simp only [run, List.mem_append] at hmem ⊢
    cases c with
    | close =>
      exfalso
      rcases hmem with h | h
      · simp only [stepCmd, cancelAll, List.mem_map] at h
        obtain ⟨w, _, hw⟩ := h
        simp at hw
      · rcases run_granted_src _ cs b tb h with h' | h'
        · simp only [stepCmd, cancelAll, List.map_nil] at h'
          simp at h'
        · exact hnb' h'
    | tryAcquire =>
      rcases hmem with h | h
      · simp [stepCmd] at h
      · have hq := tryAcquire_queue s t
        have hlr := tryAcquire_lastRefill s t
        have hmono : timesMono (stepCmd s (t, Cmd.tryAcquire)).1.lastRefill cs = true := by
          rw [hlr]
          exact hm'
        obtain ⟨ta, hta, hmem'⟩ := ih (stepCmd s (t, Cmd.tryAcquire)).1 i j hmono hna' hnb'
          (by rw [hq]; exact hi) (by rw [hq]; exact hj) hij (by rw [hq]; exact hcount) h
        exact ⟨ta, hta, Or.inr hmem'⟩
    | acquire i0 =>
      have hb_ne : b ≠ i0 := by
        intro hbi
        apply hnb
        rw [acquireIds_cons, hbi]
        simp
      cases hcl : s.closed with
      | true =>
        have hstep : stepCmd s (t, Cmd.acquire i0) =
            (s, [Event.errored i0 t LimiterError.limiterClosed]) := by
          simp [stepCmd, acquire, hcl]
        rcases hmem with h | h
        · rw [hstep] at h
          simp at h
        · rw [hstep] at h
          have hmono : timesMono s.lastRefill cs = true := timesMono_of_le t _ cs hle hm'
          obtain ⟨ta, hta, hmem'⟩ := ih s i j hmono hna' hnb' hi hj hij hcount h
          refine ⟨ta, hta, Or.inr ?_⟩
          rw [hstep]
          exact hmem'
      | false =>
        have hqne : s.queue.isEmpty = false := by
          have hlen : i < (s.queue.map Waiter.id).length := (List.getElem?_eq_some.mp hi).1
          cases hq3 : s.queue with
          | nil =>
            rw [hq3] at hlen
            simp at hlen
          | cons w l => rfl
        obtain ⟨hev, hq2, hlr2⟩ := acquire_enqueue s i0 t hcl hqne
        rcases hmem with h | h
        · rw [hev] at h
          simp at h
        · have hmono : timesMono (stepCmd s (t, Cmd.acquire i0)).1.lastRefill cs = true := by
            rw [hlr2]
            exact hm'
          have hilen : i < (s.queue.map Waiter.id).length := (List.getElem?_eq_some.mp hi).1
          have hjlen : j < (s.queue.map Waiter.id).length := (List.getElem?_eq_some.mp hj).1
          have hmapq : (stepCmd s (t, Cmd.acquire i0)).1.queue.map Waiter.id =
              s.queue.map Waiter.id ++ [i0] := by
            rw [hq2]
            simp
          have hi' : ((stepCmd s (t, Cmd.acquire i0)).1.queue.map Waiter.id)[i]? = some a := by
            rw [hmapq, List.getElem?_append, if_pos hilen]
            exact hi
          have hj' : ((stepCmd s (t, Cmd.acquire i0)).1.queue.map Waiter.id)[j]? = some b := by
            rw [hmapq, List.getElem?_append, if_pos hjlen]
            exact hj
          have hcount' : ((stepCmd s (t, Cmd.acquire i0)).1.queue.map Waiter.id).count b = 1 := by
            rw [hmapq, List.count_append, hcount]
            have : ([i0] : List ℕ).count b = 0 := by
              simp [List.count_singleton]
              omega
            omega
          obtain ⟨ta, hta, hmem'⟩ := ih _ i j hmono hna' hnb' hi' hj' hij hcount' h
          exact ⟨ta, hta, Or.inr hmem'⟩
    | tick =>
      have hev : (stepCmd s (t, Cmd.tick)).2 =
          (s.queue.take (stepCmd s (t, Cmd.tick)).2.length).map
            (fun w => Event.granted w.id t) := grantLoop_events_eq t _ s.queue
      have hqd : (stepCmd s (t, Cmd.tick)).1.queue =
          s.queue.drop (stepCmd s (t, Cmd.tick)).2.length := grantLoop_queue_eq t _ s.queue
      have hlrt : (stepCmd s (t, Cmd.tick)).1.lastRefill = t := rfl
      set g := (stepCmd s (t, Cmd.tick)).2.length with hgdef
      have hjlen : j < (s.queue.map Waiter.id).length := (List.getElem?_eq_some.mp hj).1
      have hilen : i < (s.queue.map Waiter.id).length := (List.getElem?_eq_some.mp hi).1
      have huniq : ∀ k, (s.queue.map Waiter.id)[k]? = some b → k = j := by
        intro k hk
        by_contra hkj
        have := two_le_count_of_two_idx _ b k j hk hj hkj
        omega
      have ha_in_step : i < g → Event.granted a t ∈ (stepCmd s (t, Cmd.tick)).2 := by
        intro hig
        rw [hev]
        have hwa : ∃ wa, s.queue[i]? = some wa ∧ wa.id = a := by
          rw [List.getElem?_map] at hi
          exact Option.map_eq_some'.mp hi
        obtain ⟨wa, hwa1, hwa2⟩ := hwa
        have hmem1 : wa ∈ s.queue.take g := by
          have ht : (s.queue.take g)[i]? = some wa := by
            rw [List.getElem?_take, if_pos hig]
            exact hwa1
          exact List.getElem?_mem ht
        exact hwa2 ▸ List.mem_map_of_mem (fun w => Event.granted w.id t) hmem1
      rcases hmem with h | h
      · -- b granted by this tick; so j < g and a is granted at the same instant
        have hjg : j < g := by
          rw [hev] at h
          simp only [List.mem_map] at h
          obtain ⟨w, hwmem, hwid⟩ := h
          obtain ⟨hwb, htb⟩ := (Event.granted.injEq _ _ _ _).mp hwid
          obtain ⟨k, hk⟩ := List.mem_iff_getElem?.mp hwmem
          have hkg : k < g := by
            have h1 := (List.getElem?_eq_some.mp hk).1
            have hlt : (s.queue.take g).length ≤ g := by
              rw [List.length_take]
              omega
            omega
          have hkq : (s.queue.map Waiter.id)[k]? = some b := by
            rw [List.getElem?_take, if_pos hkg] at hk
            rw [List.getElem?_map, hk]
            simp [hwb]
          have := huniq k hkq
          omega
        have htb2 : tb = t := by
          rw [hev] at h
          simp only [List.mem_map] at h
          obtain ⟨w, _, hwid⟩ := h
          exact ((Event.granted.injEq _ _ _ _).mp hwid).2.symm
        refine ⟨t, le_of_eq htb2.symm, Or.inl (ha_in_step (by omega))⟩
      · -- b granted later
        by_cases hjg : j < g
        · -- impossible: b was popped, is not in the queue and never re-acquired
          exfalso
          have hbtake : b ∈ (s.queue.map Waiter.id).take g := by
            have ht : ((s.queue.map Waiter.id).take g)[j]? = some b := by
              rw [List.getElem?_take, if_pos hjg]
              exact hj
            exact List.getElem?_mem ht
          have hcdrop : ((s.queue.map Waiter.id).drop g).count b = 0 := by
            have hctake : 0 < ((s.queue.map Waiter.id).take g).count b :=
              List.count_pos_iff.mpr hbtake
            have hsplit : ((s.queue.map Waiter.id).take g).count b +
                ((s.queue.map Waiter.id).drop g).count b =
                (s.queue.map Waiter.id).count b := by
              rw [← List.count_append, List.take_append_drop]
            omega
          have hnotin : b ∉ (stepCmd s (t, Cmd.tick)).1.queue.map Waiter.id := by
            rw [hqd, List.map_drop]
            exact List.count_eq_zero.mp hcdrop
          rcases run_granted_src _ cs b tb h with h' | h'
          · exact hnotin h'
          · exact hnb' h'
        · -- b still queued at position j - g
          by_cases hig : i < g
          · -- a granted now, b granted at some tb ≥ t
            have htge := run_event_time_ge (stepCmd s (t, Cmd.tick)).1 cs t hm'
              (Event.granted b tb) h
            exact ⟨t, htge, Or.inl (ha_in_step hig)⟩
          · -- both still queued; recurse
            have hbtake0 : ((s.queue.map Waiter.id).take g).count b = 0 := by
              rw [List.count_eq_zero]
              intro hmemb
              obtain ⟨k, hk⟩ := List.mem_iff_getElem?.mp hmemb
              have hkg : k < g := by
                have h1 := (List.getElem?_eq_some.mp hk).1
                have hlt : ((s.queue.map Waiter.id).take g).length ≤ g := by
                  rw [List.length_take]
                  omega
                omega
              have hkq : (s.queue.map Waiter.id)[k]? = some b := by
                rw [List.getElem?_take, if_pos hkg] at hk
                exact hk
              have := huniq k hkq
              omega
            have hcdrop : ((s.queue.map Waiter.id).drop g).count b = 1 := by
              have hsplit : ((s.queue.map Waiter.id).take g).count b +
                  ((s.queue.map Waiter.id).drop g).count b =
                  (s.queue.map Waiter.id).count b := by
                rw [← List.count_append, List.take_append_drop]
              omega
            have hmapq : (stepCmd s (t, Cmd.tick)).1.queue.map Waiter.id =
                (s.queue.map Waiter.id).drop g := by
              rw [hqd, List.map_drop]
            have hi' : ((stepCmd s (t, Cmd.tick)).1.queue.map Waiter.id)[i - g]? = some a := by
              rw [hmapq, List.getElem?_drop, show g + (i - g) = i by omega]
              exact hi
            have hj' : ((stepCmd s (t, Cmd.tick)).1.queue.map Waiter.id)[j - g]? = some b := by
              rw [hmapq, List.getElem?_drop, show g + (j - g) = j by omega]
              exact hj
            have hmono : timesMono (stepCmd s (t, Cmd.tick)).1.lastRefill cs = true := by
              rw [hlrt]
              exact hm'
            obtain ⟨ta, hta, hmem'⟩ := ih _ (i - g) (j - g) hmono hna' hnb' hi' hj'
              (by omega) (by rw [hmapq]; exact hcdrop) h
            exact ⟨ta, hta, Or.inr hmem'⟩

end RateLimiter

namespace Claims

open RateLimiter

/-- C4: for every limiter and every sequence of operations (acquire,
tryAcquire, cancelAll, refills/ticks) with nondecreasing timestamps and
arbitrary idle gaps, the token balance at the reached observation point
satisfies `0 ≤ tokens ≤ capacity` (every observation point is the end of
some such trace, and traces are universally quantified). -/
theorem c4_tokens_invariant (s : LimiterState) (cs : List (ℚ × Cmd))
    (hwf : Wf s) (hm : timesMono s.lastRefill cs = true) :
    0 ≤ (run s cs).1.tokens ∧ (run s cs).1.tokens ≤ ((run s cs).1.capacity : ℚ) := by
  have h := run_wf s cs hwf hm
  exact ⟨h.1, h.2.1⟩

theorem c4_tokens_invariant_witness :
    0 ≤ (run (newLimiter "taostats" 5 60 0)
          [(0, Cmd.acquire 0), (120, Cmd.tick), (120, Cmd.tryAcquire),
           (130, Cmd.close)]).1.tokens ∧
      (run (newLimiter "taostats" 5 60 0)
          [(0, Cmd.acquire 0), (120, Cmd.tick), (120, Cmd.tryAcquire),
           (130, Cmd.close)]).1.tokens ≤
        ((run (newLimiter "taostats" 5 60 0)
          [(0, Cmd.acquire 0), (120, Cmd.tick), (120, Cmd.tryAcquire),
           (130, Cmd.close)]).1.capacity : ℚ) :=
  c4_tokens_invariant _ _
    ⟨by norm_num [newLimiter], by norm_num [newLimiter], by norm_num [newLimiter],
     by norm_num [newLimiter]⟩
    (by decide)

/-- C1: for a limiter with capacity `C` and period `P`, starting from a
steady state (balance below one token) at the window's start, any trace
of operations whose timestamps stay within the window of length `P`
produces at most `C` grants, whatever the interleaving of concurrent
acquire calls at the window boundary. -/
theorem c1_no_overadmission (s : LimiterState) (cs : List (ℚ × Cmd))
    (hwf : Wf s) (hsteady : s.tokens < 1)
    (hm : timesMono s.lastRefill cs = true)
    (hwin : ∀ p ∈ cs, p.1 ≤ s.lastRefill + s.periodSeconds) :
    grantsCount (run s cs).2 ≤ s.capacity := by
  have hacc := run_accounting s cs
  have hwf' := run_wf s cs hwf hm
  have hP := hwf.2.2.2
  have hPne : s.periodSeconds ≠ 0 := ne_of_gt hP
  have hlr : (run s cs).1.lastRefill ≤ s.lastRefill + s.periodSeconds := by
    rcases run_lastRefill_mem s cs with h | ⟨p, hp, hv⟩
    · rw [h]
      linarith
    · rw [hv]
      exact hwin p hp
  have hrate : 0 ≤ refillRate s := by
    apply div_nonneg _ (le_of_lt hP)
    positivity
  have hrefP : s.periodSeconds * refillRate s = (s.capacity : ℚ) := by
    rw [refillRate]
    field_simp
  have h2 : ((run s cs).1.lastRefill - s.lastRefill) * refillRate s ≤ (s.capacity : ℚ) := by
    calc ((run s cs).1.lastRefill - s.lastRefill) * refillRate s
        ≤ s.periodSeconds * refillRate s := by
          apply mul_le_mul_of_nonneg_right _ hrate
          linarith
      _ = (s.capacity : ℚ) := hrefP
  have h3 : (grantsCount (run s cs).2 : ℚ) < (s.capacity : ℚ) + 1 := by
    have h4 := hwf'.1
    linarith
  have h5 : grantsCount (run s cs).2 < s.capacity + 1 := by exact_mod_cast h3
  omega

theorem c1_no_overadmission_witness :
    grantsCount (run (LimiterState.mk "taostats" 5 60 (1/2) 0 [] false)
        [(0, Cmd.acquire 0), (30, Cmd.tick), (60, Cmd.acquire 1)]).2 ≤ 5 :=
  c1_no_overadmission (LimiterState.mk "taostats" 5 60 (1/2) 0 [] false)
    [(0, Cmd.acquire 0), (30, Cmd.tick), (60, Cmd.acquire 1)]
    ⟨by norm_num, by norm_num, by norm_num, by norm_num⟩
    (by norm_num) (by decide)
    (by intro p hp; fin_cases hp <;> norm_num)

/-- C2: from a fresh limiter, `N > capacity` back-to-back acquire calls at
one instant get exactly `capacity` immediate grants; the remaining
callers (the `(capacity+1)`-th first, at the queue head) are enqueued and
receive no grant from any further activity strictly before
`1 / refillRatePerSecond = periodSeconds / capacity` seconds have elapsed
since the bucket was emptied. -/
theorem c2_capacity_bound (name : String) (C : ℕ) (P t : ℚ) (ids : List ℕ)
    (cs : List (ℚ × Cmd)) (hC : 1 ≤ C) (hP : 0 < P) (hlen : C < ids.length)
    (hm : timesMono t cs = true)
    (hwin : ∀ p ∈ cs, p.1 < t + P / (C : ℚ)) :
    grantsCount (run (newLimiter name C P t)
        (ids.map (fun i => (t, Cmd.acquire i)))).2 = C ∧
      (run (newLimiter name C P t)
        (ids.map (fun i => (t, Cmd.acquire i)))).1.queue =
        (ids.drop C).map (fun i => (⟨i, t⟩ : Waiter)) ∧
      grantsCount (run (run (newLimiter name C P t)
        (ids.map (fun i => (t, Cmd.acquire i)))).1 cs).2 = 0 := by
  have hCne : (C : ℚ) ≠ 0 := by
    have : 0 < (C : ℚ) := by exact_mod_cast hC
    exact ne_of_gt this
  have hCpos : 0 < (C : ℚ) := by exact_mod_cast hC
  have hPne : P ≠ 0 := ne_of_gt hP
  obtain ⟨hg, hq, htk, hlr⟩ := burst_full t ids (newLimiter name C P t) C rfl rfl rfl
    rfl (le_refl C)
  have hminC : min ids.length C = C := by omega
  refine ⟨by rw [hg, hminC], hq, ?_⟩
  set s1 := (run (newLimiter name C P t) (ids.map (fun i => (t, Cmd.acquire i)))).1 with hs1
  have htok1 : s1.tokens = 0 := by
    rw [htk, hminC]
    simp
  have hparams := run_params (newLimiter name C P t)
    (ids.map (fun i => (t, Cmd.acquire i)))
  have hwf1 : Wf s1 :=
    run_wf _ _ (newLimiter_wf name C P t hC hP) (timesMono_const t ids)
  have hm1 : timesMono s1.lastRefill cs = true := by
    rw [hlr]
    exact hm
  have hwf2 := run_wf s1 cs hwf1 hm1
  have hacc := run_accounting s1 cs
  have hrate1 : refillRate s1 = (C : ℚ) / P := by
    rw [refillRate, hs1, hparams.1, hparams.2]
    rfl
  have hratepos : 0 < (C : ℚ) / P := div_pos hCpos hP
  have hlrf : (run s1 cs).1.lastRefill < t + P / (C : ℚ) := by
    rcases run_lastRefill_mem s1 cs with h | ⟨p, hp, hv⟩
    · rw [h, hlr]
      have : 0 < P / (C : ℚ) := div_pos hP hCpos
      linarith
    · rw [hv]
      exact hwin p hp
  have hkey : ((run s1 cs).1.lastRefill - s1.lastRefill) * refillRate s1 < 1 := by
    rw [hrate1, hlr]
    have hPC : (P / (C : ℚ)) * ((C : ℚ) / P) = 1 := by
      field_simp
    calc ((run s1 cs).1.lastRefill - t) * ((C : ℚ) / P)
        < (P / (C : ℚ)) * ((C : ℚ) / P) := by
          apply mul_lt_mul_of_pos_right _ hratepos
          linarith
      _ = 1 := hPC
  have hfin : (grantsCount (run s1 cs).2 : ℚ) < 1 := by
    have h0 := hwf2.1
    rw [htok1] at hacc
    linarith
  have : grantsCount (run s1 cs).2 = 0 := by
    by_contra hne
    have h1 : 1 ≤ grantsCount (run s1 cs).2 := Nat.one_le_iff_ne_zero.mpr hne
    have : (1 : ℚ) ≤ (grantsCount (run s1 cs).2 : ℚ) := by exact_mod_cast h1
    linarith
  exact this

theorem c2_capacity_bound_witness :
    grantsCount (run (newLimiter "w" 1 2 0)
        ([0, 1].map (fun i => ((0 : ℚ), Cmd.acquire i)))).2 = 1 ∧
      (run (newLimiter "w" 1 2 0)
        ([0, 1].map (fun i => ((0 : ℚ), Cmd.acquire i)))).1.queue =
        ([0, 1].drop 1).map (fun i => (⟨i, 0⟩ : Waiter)) ∧
      grantsCount (run (run (newLimiter "w" 1 2 0)
        ([0, 1].map (fun i => ((0 : ℚ), Cmd.acquire i)))).1
        [((1 : ℚ), Cmd.tick)]).2 = 0 :=
  c2_capacity_bound "w" 1 2 0 [0, 1] [((1 : ℚ), Cmd.tick)]
    (le_refl 1) (by norm_num) (by norm_num) (by decide)
    (by intro p hp; fin_cases hp <;> norm_num)

/-- C5: closing a limiter with `N` pending waiters emits exactly one
`limiterClosed` resolution per queued waiter (`N` in total, in queue
order), leaves the queue empty — no waiter stays suspended — and does not
change the token balance. -/
theorem c5_close_drains (s : LimiterState) (t : ℚ) :
    (stepCmd s (t, Cmd.close)).2 =
        s.queue.map (fun w => Event.errored w.id t LimiterError.limiterClosed) ∧
      (stepCmd s (t, Cmd.close)).2.length = s.queue.length ∧
      (stepCmd s (t, Cmd.close)).1.queue = [] ∧
      (stepCmd s (t, Cmd.close)).1.tokens = s.tokens :=
  ⟨rfl, by simp [stepCmd, cancelAll], rfl, rfl⟩

/-- C6: (1) every error a limiter run ever delivers is `limiterClosed`
(never `deadlineExceeded`, which the core does not implement); (2) without
a `close` in the trace an open limiter delivers no errors at all —
contention only delays; (3) once closed, an `acquire` is rejected
immediately with `limiterClosed` and does not suspend (state unchanged,
nothing enqueued). -/
theorem c6_error_taxonomy (s : LimiterState) (cs : List (ℚ × Cmd)) (t : ℚ) (id : ℕ) :
    (∀ i te e, Event.errored i te e ∈ (run s cs).2 →
        e = LimiterError.limiterClosed) ∧
      (s.closed = false → hasClose cs = false →
        ∀ i te e, Event.errored i te e ∉ (run s cs).2) ∧
      (s.closed = true →
        stepCmd s (t, Cmd.acquire id) =
          (s, [Event.errored id t LimiterError.limiterClosed])) := by
  refine ⟨?_, ?_, ?_⟩
  · intro i te e h
    exact run_errors_limiterClosed s cs i te e h
  · intro h1 h2
    exact run_no_error s cs h1 h2
  · intro h
    simp [stepCmd, RateLimiter.acquire, h]

/-- C3: FIFO fairness — if waiter A sits ahead of waiter B in a limiter's
queue (distinct waiters, and neither identifier re-enters through a later
acquire), then whenever B is granted at some time, A was granted at an
earlier-or-equal time; B is never granted while A is still pending. -/
theorem c3_fifo_fairness (s : LimiterState) (cs : List (ℚ × Cmd)) (a b : ℕ)
    (i j : ℕ) (tb : ℚ)
    (hm : timesMono s.lastRefill cs = true)
    (hna : a ∉ acquireIds cs) (hnb : b ∉ acquireIds cs)
    (hi : (s.queue.map Waiter.id)[i]? = some a)
    (hj : (s.queue.map Waiter.id)[j]? = some b)
    (hij : i < j)
    (hnodup : (s.queue.map Waiter.id).Nodup)
    (hbg : Event.granted b tb ∈ (run s cs).2) :
    ∃ ta, ta ≤ tb ∧ Event.granted a ta ∈ (run s cs).2 := by
  have hcount : (s.queue.map Waiter.id).count b = 1 :=
    List.count_eq_one_of_mem hnodup (List.getElem?_mem hj)
  exact fifo_aux a b tb cs s i j hm hna hnb hi hj hij hcount hbg

theorem c3_fifo_fairness_witness :
    ∃ ta, ta ≤ 0 ∧ Event.granted 1 ta ∈
      (run (LimiterState.mk "w" 2 60 2 0 [⟨1, 0⟩, ⟨2, 0⟩] false)
        [(0, Cmd.tick)]).2 :=
  c3_fifo_fairness (LimiterState.mk "w" 2 60 2 0 [⟨1, 0⟩, ⟨2, 0⟩] false)
    [(0, Cmd.tick)] 1 2 0 1 0 (by decide) (by decide) (by decide)
    (by decide) (by decide) (by decide) (by decide)
    (by
      show Event.granted 2 0 ∈
        (run (LimiterState.mk "w" 2 60 2 0 [⟨1, 0⟩, ⟨2, 0⟩] false) [(0, Cmd.tick)]).2
      simp only [run, stepCmd, service, refill, refillRate, grantLoop]
      norm_num)

theorem c6_error_taxonomy_witness :
    stepCmd (LimiterState.mk "masa" 15 60 15 0 [] true) (0, Cmd.acquire 7) =
      (LimiterState.mk "masa" 15 60 15 0 [] true,
        [Event.errored 7 0 LimiterError.limiterClosed]) :=
  (c6_error_taxonomy (LimiterState.mk "masa" 15 60 15 0 [] true) [] 0 7).2.2 rfl

end Claims

namespace Claims

/-- C7 counterexample: with `TAO_STAT_MINUTE_LIMIT="abc"` (set but
non-numeric), the code computes `parseInt("abc")`, which is `NaN` — the
limiter does not receive the default 5 the claim promises. -/
theorem c7_counterexample :
    Config.taostatsMinuteLimit (some "abc") = none ∧
      Config.claimedTaostatsMinuteLimit (some "abc") = 5 ∧
      Config.taostatsMinuteLimit (some "abc") ≠
        some (Config.claimedTaostatsMinuteLimit (some "abc")) := by
  refine ⟨?_, ?_, ?_⟩ <;> decide

/-- C7 amended: the Taostats client uses the default 5 exactly when the
variable is unset or empty; a set nonempty value is handed to `parseInt`
with no further fallback, so a non-numeric value yields `NaN` rather
than the default, and a numeric one yields its parsed value. The Masa
limit is hard-coded at 15 with no environment configuration at all. -/
theorem c7_minute_limit_config :
    Config.taostatsMinuteLimit none = some 5 ∧
      Config.taostatsMinuteLimit (some "") = some 5 ∧
      (∀ s : String, s ≠ "" →
        Config.taostatsMinuteLimit (some s) = Config.parseIntJS s) ∧
      Config.masaLimiterCapacity = 15 := by
  refine ⟨by decide, by decide, ?_, rfl⟩
  intro s hs
  simp [Config.taostatsMinuteLimit, Config.envOrDefault, hs]

theorem c7_minute_limit_config_witness :
    ("7" : String) ≠ "" ∧
      Config.taostatsMinuteLimit (some "7") = Config.parseIntJS "7" ∧
      Config.parseIntJS "7" = some 7 :=
  ⟨by decide, (c7_minute_limit_config).2.2.1 "7" (by decide), by decide⟩

/-- C8: in every public method of the Taostats and Masa service clients,
each outbound HTTP request is preceded in program order by its own
awaited (hence resolved) `acquire()` on the service's limiter: the
running admission balance is positive at every request of every method
trace. -/
theorem c8_acquire_precedes_http :
    Services.serviceMethodTraces.all
      (fun p => Services.admissionCovered 0 p.2) = true := by
  decide

/-- C9: every stake record produced by `getValidatorInfo` satisfies
`total = selfStake + delegatedStake` exactly, because the code defines
`delegatedStake` as `totalStake - selfStake` (and the no-validator case
returns all zeros). -/
theorem c9_stake_total (vinfo : Option TaostatsSvc.ValidatorApiEntry)
    (ds : List TaostatsSvc.DelegationEntry) :
    (TaostatsSvc.validatorStakeBreakdown vinfo ds).total =
      (TaostatsSvc.validatorStakeBreakdown vinfo ds).selfStake +
        (TaostatsSvc.validatorStakeBreakdown vinfo ds).delegatedStake := by
  cases vinfo with
  | none => simp [TaostatsSvc.validatorStakeBreakdown]
  | some v =>
    simp only [TaostatsSvc.validatorStakeBreakdown]
    ring

/-- C10: `searchTwitter` resolves with the raw uuid string (a job id)
whenever the response body carries a truthy `uuid`, and only when the
uuid is absent (or empty) does it resolve with a results object carrying
`results`, `query` and `summary`. -/
theorem c10_searchTwitter_branches (query : String)
    (d : MasaSvc.SearchResponseData) :
    (∀ u, d.uuid = some u → u ≠ "" →
        MasaSvc.searchTwitter query (some d) =
          MasaSvc.SearchTwitterOutcome.jobId u) ∧
      (MasaSvc.uuidTruthy d.uuid = false →
        MasaSvc.searchTwitter query (some d) =
          MasaSvc.SearchTwitterOutcome.searchResult (d.results.getD []) query
            (MasaSvc.generateTwitterSearchSummary (d.results.getD []) query)) := by
  constructor
  · intro u hu hne
    simp [MasaSvc.searchTwitter, MasaSvc.uuidTruthy, hu, hne]
  · intro h
    simp [MasaSvc.searchTwitter, h]

theorem c10_searchTwitter_branches_witness :
    MasaSvc.searchTwitter "tao" (some ⟨some "job-1", none⟩) =
        MasaSvc.SearchTwitterOutcome.jobId "job-1" ∧
      MasaSvc.searchTwitter "tao" (some ⟨none, none⟩) =
        MasaSvc.SearchTwitterOutcome.searchResult [] "tao"
          (MasaSvc.generateTwitterSearchSummary [] "tao") :=
  ⟨(c10_searchTwitter_branches "tao" ⟨some "job-1", none⟩).1 "job-1" rfl (by decide),
   (c10_searchTwitter_branches "tao" ⟨none, none⟩).2 (by decide)⟩

end Claims
